import Mathlib

/-!
Verification of the core analytical engine of the Gran Fondo BC dashboard
(`app.py`): competition calendar, record normalization, heart-rate-zone
deduplication, zone-weighted scoring, and streak computation.

Dates are modelled as proleptic Gregorian ordinals (day numbers with
0001-01-01 = 1, exactly Python `date.toordinal`), carried in `ℤ` so that
Python date subtraction is ordinary integer subtraction.  Python floor
division `//` and floor modulus `%` on these always-positive-divisor
expressions are `Int.ediv` and `Int.emod`.
-/

namespace GranFondoBC

/-- Whether a proleptic Gregorian year is a leap year. -/
def isLeap (y : ℕ) : Bool :=
  (y % 4 == 0 && y % 100 != 0) || (y % 400 == 0)

/-- Days in all years strictly before year `y` (proleptic Gregorian). -/
def daysBeforeYear (y : ℕ) : ℕ :=
  365 * (y - 1) + (y - 1) / 4 + (y - 1) / 400 - (y - 1) / 100

/-- Days in the months of year `y` strictly before month `m`. -/
def daysBeforeMonth (y m : ℕ) : ℕ :=
  let base :=
    match m with
    | 1 => 0 | 2 => 31 | 3 => 59 | 4 => 90 | 5 => 120 | 6 => 151
    | 7 => 181 | 8 => 212 | 9 => 243 | 10 => 273 | 11 => 304 | _ => 334
  if 2 < m && isLeap y then base + 1 else base

/-- Proleptic Gregorian ordinal of a calendar date, as Python
`datetime.date(y, m, d).toordinal()` (0001-01-01 is day 1). -/
def dateOrd (y m d : ℕ) : ℤ :=
  (daysBeforeYear y + daysBeforeMonth y m + d : ℕ)

/-- `COMPETITION_START = datetime(2025, 8, 11).date()` (a Monday). -/
def COMPETITION_START : ℤ := dateOrd 2025 8 11

/-- `COMPETITION_END = datetime(2025, 10, 5).date()` (a Sunday). -/
def COMPETITION_END : ℤ := dateOrd 2025 10 5

/-- `COMPETITION_WEEKS = 8`. -/
def COMPETITION_WEEKS : ℕ := 8

/-- Python `date.weekday()`: Monday = 0 .. Sunday = 6.  Ordinal 1
(0001-01-01) is a Monday. -/
def pyWeekday (d : ℤ) : ℤ := Int.emod (d + 6) 7

/-- One week descriptor produced by `get_competition_week_dates` (the
human-readable label is presentation-only and omitted). -/
structure CompWeek where
  week : ℕ
  start : ℤ
  endDate : ℤ
  deriving DecidableEq, Repr

/-- The loop body of `get_competition_week_dates`: `fuel` remaining loop
iterations, `weekNum` the current week number, `monday` the current Monday.
Each iteration clips the Sunday to `COMPETITION_END`, appends the
descriptor, advances by 7 days, and stops early once the next Monday
passes the competition end. -/
def weekDatesAux : ℕ → ℕ → ℤ → List CompWeek
  | 0, _, _ => []
  | fuel + 1, weekNum, monday =>
    let sunday := if monday + 6 > COMPETITION_END then COMPETITION_END else monday + 6
    { week := weekNum, start := monday, endDate := sunday } ::
      (if monday + 7 > COMPETITION_END then []
       else weekDatesAux fuel (weekNum + 1) (monday + 7))

/-- `get_competition_week_dates()`: all competition week date ranges. -/
def getCompetitionWeekDates : List CompWeek :=
  weekDatesAux COMPETITION_WEEKS 1 COMPETITION_START

/-- `get_current_competition_week()`, with "today" made an explicit
argument (the source reads `datetime.now().date()`). -/
def getCurrentCompetitionWeek (today : ℤ) : ℤ × String :=
  if today < COMPETITION_START then (0, "Pre-Competition")
  else if today > COMPETITION_END then ((COMPETITION_WEEKS : ℤ) + 1, "Post-Competition")
  else
    let daysSinceStart := today - COMPETITION_START
    let currentWeek := Int.ediv daysSinceStart 7 + 1
    if currentWeek > (COMPETITION_WEEKS : ℤ) then ((COMPETITION_WEEKS : ℤ) + 1, "Post-Competition")
    else (currentWeek, "Week " ++ toString currentWeek)

/-- `get_current_competition_week_dates()`, with "today" explicit: the
current week Monday and Sunday, falling back to the calendar week when
today is outside the competition window. -/
def getCurrentCompetitionWeekDates (today : ℤ) : ℤ × ℤ :=
  if today < COMPETITION_START ∨ today > COMPETITION_END then
    let monday := today - pyWeekday today
    (monday, monday + 6)
  else
    let currentWeekNum := Int.ediv (today - COMPETITION_START) 7
    let monday := COMPETITION_START + currentWeekNum * 7
    let sunday := monday + 6
    (monday, if sunday > COMPETITION_END then COMPETITION_END else sunday)

/-- Checks a relation between every pair of adjacent list elements. -/
def adjacentOK (p : CompWeek → CompWeek → Bool) : List CompWeek → Bool
  | [] => true
  | [_] => true
  | a :: b :: rest => p a b && adjacentOK p (b :: rest)

/-- C4: the week-descriptor sequence from the fixed configuration
(start 2025-08-11, end 2025-10-05, 8 weeks) is nonempty, each week starts
no later than it ends, consecutive weeks are strictly increasing and
contiguous (next start = previous end + 1 day), and no week end exceeds
the competition end date. -/
theorem weekDates_contiguous_increasing_clipped :
    getCompetitionWeekDates.length = COMPETITION_WEEKS ∧
    (∀ w ∈ getCompetitionWeekDates, w.start ≤ w.endDate ∧ w.endDate ≤ COMPETITION_END) ∧
    adjacentOK
      (fun a b => b.start == a.endDate + 1 && a.start < b.start && b.week == a.week + 1)
      getCompetitionWeekDates = true := by
  refine ⟨by decide, by decide, by decide⟩

/-- C7: the current-week status is `(0, "Pre-Competition")` before the
start, `(weekCount + 1, "Post-Competition")` after the end, and
`(⌊(today − start)/7⌋ + 1, "Week N")` inside the window. -/
theorem currentWeek_status (today : ℤ) :
    (today < COMPETITION_START →
      getCurrentCompetitionWeek today = (0, "Pre-Competition")) ∧
    (today > COMPETITION_END →
      getCurrentCompetitionWeek today = ((COMPETITION_WEEKS : ℤ) + 1, "Post-Competition")) ∧
    (COMPETITION_START ≤ today → today ≤ COMPETITION_END →
      getCurrentCompetitionWeek today =
        (Int.ediv (today - COMPETITION_START) 7 + 1,
         "Week " ++ toString (Int.ediv (today - COMPETITION_START) 7 + 1))) := by
  refine ⟨fun h => ?_, fun h => ?_, fun h1 h2 => ?_⟩
  · simp [getCurrentCompetitionWeek, h]
  · have h1 : ¬ today < COMPETITION_START := by
      have : COMPETITION_START ≤ COMPETITION_END := by decide
      omega
    simp [getCurrentCompetitionWeek, h1, h]
  · have hn1 : ¬ today < COMPETITION_START := by omega
    have hn2 : ¬ today > COMPETITION_END := by omega
    have hspan : today - COMPETITION_START ≤ 55 := by
      have : COMPETITION_END - COMPETITION_START = 55 := by decide
      omega
    have hme : 7 * Int.ediv (today - COMPETITION_START) 7 + Int.emod (today - COMPETITION_START) 7
        = today - COMPETITION_START := Int.ediv_add_emod _ 7
    have hm1 : 0 ≤ Int.emod (today - COMPETITION_START) 7 :=
      Int.emod_nonneg _ (by decide)
    have hn3 : ¬ (Int.ediv (today - COMPETITION_START) 7 + 1 > (COMPETITION_WEEKS : ℤ)) := by
      simp only [COMPETITION_WEEKS, Nat.cast_ofNat]
      omega
    simp [getCurrentCompetitionWeek, hn1, hn2, hn3]

/-- Closed instance of `currentWeek_status` at a concrete pre-competition
date. -/
theorem currentWeek_status_witness :
    dateOrd 2025 8 1 < COMPETITION_START ∧
    getCurrentCompetitionWeek (dateOrd 2025 8 1) = (0, "Pre-Competition") :=
  ⟨by decide, (currentWeek_status (dateOrd 2025 8 1)).1 (by decide)⟩

/-- C10: the current-week bounds always bracket today and span at most 7
calendar days, both inside the competition window (with Sunday clipping)
and outside it (calendar-week fallback). -/
theorem currentWeekDates_bracket_today (today : ℤ) :
    (getCurrentCompetitionWeekDates today).1 ≤ today ∧
    today ≤ (getCurrentCompetitionWeekDates today).2 ∧
    (getCurrentCompetitionWeekDates today).2 - (getCurrentCompetitionWeekDates today).1 ≤ 6 := by
  unfold getCurrentCompetitionWeekDates
  by_cases h : today < COMPETITION_START ∨ today > COMPETITION_END
  · simp only [h, if_true]
    have h1 : 0 ≤ pyWeekday today := Int.emod_nonneg _ (by decide)
    have h2 : pyWeekday today < 7 := Int.emod_lt_of_pos _ (by decide)
    constructor
    · omega
    · constructor <;> omega
  · simp only [h, if_false]
    push_neg at h
    obtain ⟨h1, h2⟩ := h
    have h0 : 0 ≤ today - COMPETITION_START := by omega
    have hme : 7 * Int.ediv (today - COMPETITION_START) 7 + Int.emod (today - COMPETITION_START) 7
        = today - COMPETITION_START := Int.ediv_add_emod _ 7
    have hm1 : 0 ≤ Int.emod (today - COMPETITION_START) 7 :=
      Int.emod_nonneg _ (by decide)
    have hm2 : Int.emod (today - COMPETITION_START) 7 < 7 :=
      Int.emod_lt_of_pos _ (by decide)
    by_cases hclip :
        COMPETITION_START + Int.ediv (today - COMPETITION_START) 7 * 7 + 6 > COMPETITION_END
    · simp only [hclip, if_true]
      refine ⟨by omega, by omega, by omega⟩
    · simp only [hclip, if_false]
      refine ⟨by omega, by omega, by omega⟩

/-! ## Heart-rate-zone records, scoring and deduplication -/

/-- One row of the heart-rate-zone dataframe after the join/flatten of
`fetch_heart_rate_zones_by_date`: an activity identifier, the athlete name
produced by the join (`none` when the join failed and the cell stayed
null), and the five nullable zone-time columns in seconds.  The dataframe
also carries further presentation columns not used by the scoring engine.
-/
structure HRRecord where
  activity_id : ℕ
  athlete_name : Option String
  zone_1_seconds : Option ℚ
  zone_2_seconds : Option ℚ
  zone_3_seconds : Option ℚ
  zone_4_seconds : Option ℚ
  zone_5_seconds : Option ℚ
  deriving Repr, DecidableEq

/-- Pandas `.fillna(0)` on a nullable cell. -/
def fillna0 (v : Option ℚ) : ℚ := v.getD 0

/-- The per-record points of `calculate_hr_zone_points`:
`zone_points = Σ (zone_i_seconds.fillna(0) / 60) * i` for i = 1..5. -/
def zonePoints (r : HRRecord) : ℚ :=
  fillna0 r.zone_1_seconds / 60 * 1 +
  fillna0 r.zone_2_seconds / 60 * 2 +
  fillna0 r.zone_3_seconds / 60 * 3 +
  fillna0 r.zone_4_seconds / 60 * 4 +
  fillna0 r.zone_5_seconds / 60 * 5

/-- Zone-time lookup by zone index, for stating the scoring formula as a
sum over zones. -/
def zoneSeconds (r : HRRecord) : ℕ → ℚ
  | 1 => fillna0 r.zone_1_seconds
  | 2 => fillna0 r.zone_2_seconds
  | 3 => fillna0 r.zone_3_seconds
  | 4 => fillna0 r.zone_4_seconds
  | 5 => fillna0 r.zone_5_seconds
  | _ => 0

/-- A record with 600 seconds in zone 1 and no other zone time. -/
def zone1Only600 : HRRecord :=
  { activity_id := 1, athlete_name := some "A"
    zone_1_seconds := some 600, zone_2_seconds := none, zone_3_seconds := none
    zone_4_seconds := none, zone_5_seconds := some 0 }

/-- C1: per-record points are the sum over zones 1..5 of (zone seconds
divided by 60) times the zone weight, with weights exactly 1..5 and null
zone cells counting as zero; a record with 600 seconds in zone 1 and
nothing elsewhere scores exactly 10 points. -/
theorem zonePoints_weighted_sum :
    (∀ r : HRRecord,
      zonePoints r = (([1, 2, 3, 4, 5] : List ℕ).map
        (fun i => zoneSeconds r i / 60 * (i : ℚ))).sum) ∧
    zonePoints zone1Only600 = 10 := by
  constructor
  · intro r
    simp only [zonePoints, zoneSeconds, List.map_cons, List.map_nil, List.sum_cons,
      List.sum_nil, Nat.cast_one, Nat.cast_ofNat]
    ring
  · show (600 : ℚ) / 60 * 1 + 0 / 60 * 2 + 0 / 60 * 3 + 0 / 60 * 4 + 0 / 60 * 5 = 10
    norm_num

/-- The loop state of `drop_duplicates(subset=['activity_id'],
keep='first')`: walk the rows in order, keep a row only when its
`activity_id` has not been seen yet. -/
def dedupAux (seen : List ℕ) : List HRRecord → List HRRecord
  | [] => []
  | r :: rs =>
    if r.activity_id ∈ seen then dedupAux seen rs
    else r :: dedupAux (r.activity_id :: seen) rs

/-- `df.drop_duplicates(subset=['activity_id'], keep='first')`, as used in
both `fetch_heart_rate_zones_by_date` and `calculate_hr_zone_points`. -/
def dropDuplicatesByActivityId (l : List HRRecord) : List HRRecord :=
  dedupAux [] l

theorem mem_dedupAux {seen : List ℕ} {l : List HRRecord} {r : HRRecord}
    (h : r ∈ dedupAux seen l) : r ∈ l ∧ r.activity_id ∉ seen := by
  induction l generalizing seen with
  | nil => simp [dedupAux] at h
  | cons a t ih =>
    by_cases ha : a.activity_id ∈ seen
    · simp only [dedupAux, if_pos ha] at h
      obtain ⟨h1, h2⟩ := ih h
      exact ⟨List.mem_cons_of_mem _ h1, h2⟩
    · simp only [dedupAux, if_neg ha] at h
      rcases List.mem_cons.mp h with h | h
      · exact ⟨h ▸ List.mem_cons_self _ _, h ▸ ha⟩
      · obtain ⟨h1, h2⟩ := ih h
        simp only [List.mem_cons] at h2
        push_neg at h2
        exact ⟨List.mem_cons_of_mem _ h1, h2.2⟩

theorem dedupAux_pairwise (seen : List ℕ) (l : List HRRecord) :
    (dedupAux seen l).Pairwise (fun a b => a.activity_id ≠ b.activity_id) := by
  induction l generalizing seen with
  | nil => simp [dedupAux]
  | cons a t ih =>
    by_cases ha : a.activity_id ∈ seen
    · simpa only [dedupAux, if_pos ha] using ih seen
    · simp only [dedupAux, if_neg ha]
      refine List.Pairwise.cons ?_ (ih _)
      intro b hb
      have := (mem_dedupAux hb).2
      simp only [List.mem_cons] at this
      push_neg at this
      exact fun hc => this.1 hc.symm

theorem dedupAux_find? (seen : List ℕ) (l : List HRRecord) (r : HRRecord)
    (h : r ∈ dedupAux seen l) :
    l.find? (fun x => x.activity_id == r.activity_id) = some r := by
  induction l generalizing seen with
  | nil => simp [dedupAux] at h
  | cons a t ih =>
    by_cases ha : a.activity_id ∈ seen
    · simp only [dedupAux, if_pos ha] at h
      have hne : a.activity_id ≠ r.activity_id := by
        intro hc
        exact (mem_dedupAux h).2 (hc ▸ ha)
      rw [List.find?_cons_of_neg _ (by simpa using hne)]
      exact ih _ h
    · simp only [dedupAux, if_neg ha] at h
      rcases List.mem_cons.mp h with h | h
      · subst h
        rw [List.find?_cons_of_pos _ (by simp)]
      · have hne : a.activity_id ≠ r.activity_id := by
          have := (mem_dedupAux h).2
          simp only [List.mem_cons] at this
          push_neg at this
          exact fun hc => this.1 hc.symm
        rw [List.find?_cons_of_neg _ (by simpa using hne)]
        exact ih _ h

theorem dedupAux_complete (seen : List ℕ) (l : List HRRecord) (r : HRRecord)
    (hr : r ∈ l) (hs : r.activity_id ∉ seen) :
    ∃ r2 ∈ dedupAux seen l, r2.activity_id = r.activity_id := by
  induction l generalizing seen with
  | nil => simp at hr
  | cons a t ih =>
    rcases List.mem_cons.mp hr with h | h
    · subst h
      simp only [dedupAux, if_neg hs]
      exact ⟨r, List.mem_cons_self _ _, rfl⟩
    · by_cases ha : a.activity_id ∈ seen
      · simp only [dedupAux, if_pos ha]
        exact ih _ h hs
      · simp only [dedupAux, if_neg ha]
        by_cases hid : r.activity_id = a.activity_id
        · exact ⟨a, List.mem_cons_self _ _, hid.symm⟩
        · obtain ⟨r2, h1, h2⟩ := ih (a.activity_id :: seen) h (by
            simp only [List.mem_cons]
            push_neg
            exact ⟨hid, hs⟩)
          exact ⟨r2, List.mem_cons_of_mem _ h1, h2⟩

theorem dedupAux_id_of_fresh (seen : List ℕ) (l : List HRRecord)
    (hp : l.Pairwise (fun a b => a.activity_id ≠ b.activity_id))
    (hf : ∀ r ∈ l, r.activity_id ∉ seen) :
    dedupAux seen l = l := by
  induction l generalizing seen with
  | nil => rfl
  | cons a t ih =>
    have ha : a.activity_id ∉ seen := hf a (List.mem_cons_self _ _)
    simp only [dedupAux, if_neg ha]
    rw [ih _ (List.Pairwise.of_cons hp)]
    intro r hrt
    simp only [List.mem_cons]
    push_neg
    refine ⟨?_, hf r (List.mem_cons_of_mem _ hrt)⟩
    intro hc
    exact (List.pairwise_cons.mp hp).1 r hrt hc.symm

theorem pairwise_countP_le_one (l : List HRRecord)
    (hp : l.Pairwise (fun a b => a.activity_id ≠ b.activity_id)) (k : ℕ) :
    l.countP (fun r => r.activity_id == k) ≤ 1 := by
  induction l with
  | nil => simp
  | cons a t ih =>
    obtain ⟨h1, h2⟩ := List.pairwise_cons.mp hp
    by_cases ha : a.activity_id = k
    · rw [List.countP_cons_of_pos _ _ (by simpa using ha)]
      have : t.countP (fun r => r.activity_id == k) = 0 := by
        rw [List.countP_eq_zero]
        intro b hb
        simpa using ha ▸ (h1 b hb).symm
      omega
    · rw [List.countP_cons_of_neg _ _ (by simpa using ha)]
      exact ih h2

/-- C3: deduplication by activity identifier keeps exactly the first
record encountered for each identifier (each kept record is what `find?`
returns on the input, and every input identifier is represented), leaves
at most one record per identifier, and is idempotent. -/
theorem dropDuplicates_first_unique_idempotent (l : List HRRecord) :
    (∀ r ∈ dropDuplicatesByActivityId l,
      l.find? (fun x => x.activity_id == r.activity_id) = some r) ∧
    (∀ r ∈ l, ∃ r2 ∈ dropDuplicatesByActivityId l,
      r2.activity_id = r.activity_id) ∧
    (∀ k : ℕ,
      (dropDuplicatesByActivityId l).countP (fun r => r.activity_id == k) ≤ 1) ∧
    dropDuplicatesByActivityId (dropDuplicatesByActivityId l) =
      dropDuplicatesByActivityId l := by
  refine ⟨fun r h => dedupAux_find? [] l r h,
          fun r h => dedupAux_complete [] l r h (by simp),
          fun k => pairwise_countP_le_one _ (dedupAux_pairwise [] l) k,
          dedupAux_id_of_fresh [] _ (dedupAux_pairwise [] l) (by simp)⟩

/-- Duplicate-laden concrete input for the deduplication theorem. -/
def dedupExample : List HRRecord :=
  [{ zone1Only600 with activity_id := 7 },
   { zone1Only600 with activity_id := 7, zone_2_seconds := some 30 },
   { zone1Only600 with activity_id := 9 }]

/-- Closed instance of the deduplication theorem on a concrete list with a
duplicated activity identifier. -/
theorem dropDuplicates_witness :
    { zone1Only600 with activity_id := 7 } ∈ dropDuplicatesByActivityId dedupExample ∧
    dedupExample.find?
      (fun x => x.activity_id == ({ zone1Only600 with activity_id := 7 } : HRRecord).activity_id)
      = some { zone1Only600 with activity_id := 7 } :=
  ⟨by decide, (dropDuplicates_first_unique_idempotent dedupExample).1
    { zone1Only600 with activity_id := 7 } (by decide)⟩

/-! ## Streak calculator -/

/-- Insert into a descending-sorted list of dates (pandas
`sort_values(ascending=False)`; values are distinct after
`drop_duplicates`, so the sorted order is unique). -/
def insertDescInt (x : ℤ) : List ℤ → List ℤ
  | [] => [x]
  | y :: ys => if x ≥ y then x :: y :: ys else y :: insertDescInt x ys

/-- Sort a list of dates in descending order. -/
def sortDescInt (l : List ℤ) : List ℤ := l.foldr insertDescInt []

/-- The backward-walking loop of `calculate_athlete_streaks`: starting
from the streak counter `acc` and the next `expected` date, extend the
streak while the next (descending) distinct date matches, stop at the
first gap. -/
def streakWalk : ℤ → List ℤ → ℕ → ℕ
  | _, [], acc => acc
  | expected, d :: rest, acc =>
    if d = expected then streakWalk (expected - 1) rest (acc + 1) else acc

/-- The per-athlete body of `calculate_athlete_streaks`, with "today"
explicit: deduplicate the activity dates, sort them descending; streak 0
when the latest date is more than 1 day before today, otherwise 1 plus
the consecutive run walking backward. -/
def calculateStreak (today : ℤ) (dates : List ℤ) : ℕ :=
  match sortDescInt dates.dedup with
  | [] => 0
  | latest :: rest =>
    if today - latest > 1 then 0 else streakWalk (latest - 1) rest 1

theorem mem_insertDescInt {x z : ℤ} {l : List ℤ} :
    z ∈ insertDescInt x l ↔ z = x ∨ z ∈ l := by
  induction l with
  | nil => simp [insertDescInt]
  | cons y ys ih =>
    by_cases h : x ≥ y
    · simp [insertDescInt, if_pos h, or_comm, or_assoc, or_left_comm]
    · simp only [insertDescInt, if_neg h, List.mem_cons, ih]
      tauto

theorem mem_sortDescInt {z : ℤ} {l : List ℤ} :
    z ∈ sortDescInt l ↔ z ∈ l := by
  induction l with
  | nil => simp [sortDescInt]
  | cons y ys ih =>
    simp only [sortDescInt, List.foldr_cons, mem_insertDescInt]
    simp only [sortDescInt] at ih
    simp [ih]

theorem insertDescInt_pairwise {x : ℤ} {l : List ℤ}
    (h : l.Pairwise (· ≥ ·)) :
    (insertDescInt x l).Pairwise (· ≥ ·) := by
  induction l with
  | nil => simp [insertDescInt]
  | cons y ys ih =>
    obtain ⟨h1, h2⟩ := List.pairwise_cons.mp h
    by_cases hxy : x ≥ y
    · simp only [insertDescInt, if_pos hxy]
      refine List.pairwise_cons.mpr ⟨?_, h⟩
      intro b hb
      rcases List.mem_cons.mp hb with hb | hb
      · exact hb ▸ hxy
      · exact le_trans (h1 b hb) hxy
    · simp only [insertDescInt, if_neg hxy]
      refine List.pairwise_cons.mpr ⟨?_, ih h2⟩
      intro b hb
      rcases mem_insertDescInt.mp hb with hb | hb
      · exact hb ▸ le_of_not_ge hxy
      · exact h1 b hb

theorem sortDescInt_pairwise (l : List ℤ) :
    (sortDescInt l).Pairwise (· ≥ ·) := by
  induction l with
  | nil => simp [sortDescInt]
  | cons y ys ih => exact insertDescInt_pairwise ih

theorem insertDescInt_nodup {x : ℤ} {l : List ℤ} (hx : x ∉ l) (hl : l.Nodup) :
    (insertDescInt x l).Nodup := by
  induction l with
  | nil => simp [insertDescInt]
  | cons a t ih =>
    obtain ⟨ha1, ha2⟩ := List.nodup_cons.mp hl
    simp only [List.mem_cons] at hx
    push_neg at hx
    by_cases hxa : x ≥ a
    · simp only [insertDescInt, if_pos hxa]
      refine List.nodup_cons.mpr ⟨?_, hl⟩
      simp only [List.mem_cons]
      push_neg
      exact ⟨hx.1, hx.2⟩
    · simp only [insertDescInt, if_neg hxa]
      refine List.nodup_cons.mpr ⟨?_, ih hx.2 ha2⟩
      intro hc
      rcases mem_insertDescInt.mp hc with hc | hc
      · exact hx.1 hc.symm
      · exact ha1 hc

theorem sortDescInt_nodup {l : List ℤ} (h : l.Nodup) :
    (sortDescInt l).Nodup := by
  induction l with
  | nil => simp [sortDescInt]
  | cons y ys ih =>
    obtain ⟨h1, h2⟩ := List.nodup_cons.mp h
    exact insertDescInt_nodup (fun hc => h1 (mem_sortDescInt.mp hc)) (ih h2)

theorem streakWalk_ge (l : List ℤ) (e : ℤ) (acc : ℕ) :
    acc ≤ streakWalk e l acc := by
  induction l generalizing e acc with
  | nil => simp [streakWalk]
  | cons d t ih =>
    by_cases h : d = e
    · simp only [streakWalk, if_pos h]
      exact le_trans (Nat.le_succ acc) (ih (e - 1) (acc + 1))
    · simp [streakWalk, if_neg h]

theorem streakWalk_mem (l : List ℤ) (e : ℤ) (acc j : ℕ)
    (h1 : acc ≤ j) (h2 : j < streakWalk e l acc) :
    e - ((j - acc : ℕ) : ℤ) ∈ l := by
  induction l generalizing e acc j with
  | nil => simp only [streakWalk] at h2; omega
  | cons d t ih =>
    by_cases hd : d = e
    · simp only [streakWalk, if_pos hd] at h2
      by_cases hj : j = acc
      · subst hj
        simp only [Nat.sub_self, Nat.cast_zero, sub_zero]
        exact hd ▸ List.mem_cons_self _ _
      · have hj1 : acc + 1 ≤ j := by omega
        have := ih (e - 1) (acc + 1) j hj1 h2
        have heq : e - ((j - acc : ℕ) : ℤ) = e - 1 - ((j - (acc + 1) : ℕ) : ℤ) := by
          have c1 : ((j - acc : ℕ) : ℤ) = (j : ℤ) - acc := by omega
          have c2 : ((j - (acc + 1) : ℕ) : ℤ) = (j : ℤ) - acc - 1 := by omega
          omega
        rw [heq]
        exact List.mem_cons_of_mem _ this
    · simp only [streakWalk, if_neg hd] at h2
      omega

theorem streakWalk_stop (l : List ℤ) (e : ℤ) (acc : ℕ)
    (hp : l.Pairwise (· > ·)) (hb : ∀ d ∈ l, d ≤ e) :
    e - ((streakWalk e l acc - acc : ℕ) : ℤ) ∉ l := by
  induction l generalizing e acc with
  | nil => simp
  | cons d t ih =>
    obtain ⟨hp1, hp2⟩ := List.pairwise_cons.mp hp
    by_cases hd : d = e
    · simp only [streakWalk, if_pos hd]
      set s := streakWalk (e - 1) t (acc + 1) with hs
      have hsge : acc + 1 ≤ s := streakWalk_ge t (e - 1) (acc + 1)
      have heq : e - ((s - acc : ℕ) : ℤ) = e - 1 - ((s - (acc + 1) : ℕ) : ℤ) := by
        have c1 : ((s - acc : ℕ) : ℤ) = (s : ℤ) - acc := by omega
        have c2 : ((s - (acc + 1) : ℕ) : ℤ) = (s : ℤ) - acc - 1 := by omega
        omega
      have hnott : e - ((s - acc : ℕ) : ℤ) ∉ t := by
        rw [heq]
        exact ih (e - 1) (acc + 1) hp2 (fun x hx => by
          have := hp1 x hx
          omega)
      intro hc
      rcases List.mem_cons.mp hc with hc | hc
      · have : ((s - acc : ℕ) : ℤ) ≥ 1 := by omega
        omega
      · exact hnott hc
    · simp only [streakWalk, if_neg hd, Nat.sub_self, Nat.cast_zero, sub_zero]
      intro hc
      rcases List.mem_cons.mp hc with hc | hc
      · exact hd hc.symm
      · have h1 : e ≤ d := by
          have := hb d (List.mem_cons_self _ _)
          have := hp1 e hc
          omega
        have h2 : d ≤ e := hb d (List.mem_cons_self _ _)
        exact hd (by omega)

/-- C5: for an athlete with a non-empty set of activity dates whose most
recent date is M: if M is more than 1 day before today the streak is 0;
otherwise the streak s is at least 1, the days M, M-1, ..., M-(s-1) all
carry activity, and day M-s does not — s is exactly the consecutive run
walking backward from M.  Moreover the three examples of the claim hold
for every value of today. -/
theorem streak_spec :
    (∀ (today M : ℤ) (dates : List ℤ), M ∈ dates → (∀ d ∈ dates, d ≤ M) →
      (today - M > 1 → calculateStreak today dates = 0) ∧
      (today - M ≤ 1 →
        1 ≤ calculateStreak today dates ∧
        (∀ k : ℕ, k < calculateStreak today dates → M - k ∈ dates) ∧
        M - (calculateStreak today dates : ℤ) ∉ dates)) ∧
    (∀ t : ℤ, calculateStreak t [t, t - 1, t - 2] = 3 ∧
              calculateStreak t [t - 3] = 0 ∧
              calculateStreak t [t - 1] = 1) := by
  constructor
  · intro today M dates hM hmax
    have hMds : M ∈ sortDescInt dates.dedup :=
      mem_sortDescInt.mpr (List.mem_dedup.mpr hM)
    rcases hl : sortDescInt dates.dedup with _ | ⟨latest, rest⟩
    · rw [hl] at hMds; simp at hMds
    · rw [hl] at hMds
      have hpair : (latest :: rest).Pairwise (· ≥ ·) := hl ▸ sortDescInt_pairwise _
      have hnodup : (latest :: rest).Nodup := hl ▸ sortDescInt_nodup (List.nodup_dedup _)
      have hmemdates : ∀ z ∈ latest :: rest, z ∈ dates := by
        intro z hz
        exact List.mem_dedup.mp (mem_sortDescInt.mp (hl ▸ hz))
      have hlatest : latest = M := by
        have hle : latest ≤ M := hmax latest (hmemdates latest (List.mem_cons_self _ _))
        rcases List.mem_cons.mp hMds with h | h
        · exact h.symm
        · have := (List.pairwise_cons.mp hpair).1 M h
          omega
      subst hlatest
      have hrest_lt : ∀ d ∈ rest, d ≤ latest - 1 := by
        intro d hd
        have h1 : d ≤ latest := (List.pairwise_cons.mp hpair).1 d hd
        have h2 : latest ∉ rest := (List.nodup_cons.mp hnodup).1
        have h3 : d ≠ latest := fun hc => h2 (hc ▸ hd)
        omega
      have hrest_pair : rest.Pairwise (· > ·) := by
        have hge := (List.pairwise_cons.mp hpair).2
        have hne := (List.nodup_cons.mp hnodup).2
        exact (hge.and hne).imp (fun h => lt_of_le_of_ne h.1 (Ne.symm h.2))
      constructor
      · intro hgap
        simp only [calculateStreak, hl, if_pos hgap]
      · intro hclose
        have hno : ¬ (today - latest > 1) := by omega
        simp only [calculateStreak, hl, if_neg hno]
        refine ⟨streakWalk_ge _ _ _, ?_, ?_⟩
        · intro k hk
          by_cases hk0 : k = 0
          · subst hk0; simpa using hM
          · have h1k : 1 ≤ k := by omega
            have := streakWalk_mem rest (latest - 1) 1 k h1k hk
            have heq : latest - (k : ℤ) = latest - 1 - ((k - 1 : ℕ) : ℤ) := by
              have : ((k - 1 : ℕ) : ℤ) = (k : ℤ) - 1 := by omega
              omega
            rw [heq]
            exact hmemdates _ (List.mem_cons_of_mem _ this)
        · set s := streakWalk (latest - 1) rest 1 with hs
          have hs1 : 1 ≤ s := streakWalk_ge _ _ _
          have hstop := streakWalk_stop rest (latest - 1) 1 hrest_pair hrest_lt
          have heq : latest - (s : ℤ) = latest - 1 - ((s - 1 : ℕ) : ℤ) := by
            have : ((s - 1 : ℕ) : ℤ) = (s : ℤ) - 1 := by omega
            omega
          intro hc
          have hcds : latest - (s : ℤ) ∈ sortDescInt dates.dedup :=
            mem_sortDescInt.mpr (List.mem_dedup.mpr hc)
          rw [hl] at hcds
          rcases List.mem_cons.mp hcds with h | h
          · omega
          · exact hstop (heq ▸ h)
  · intro t
    have hd3 : ([t, t - 1, t - 2] : List ℤ).dedup = [t, t - 1, t - 2] :=
      List.dedup_eq_self.mpr (by
        simp only [List.nodup_cons, List.mem_cons, List.not_mem_nil, or_false,
          List.nodup_nil, and_true, not_or]
        norm_num
        omega)
    have hd1 : ([t - 3] : List ℤ).dedup = [t - 3] :=
      List.dedup_eq_self.mpr (by simp)
    have hd2 : ([t - 1] : List ℤ).dedup = [t - 1] :=
      List.dedup_eq_self.mpr (by simp)
    have e2 : insertDescInt (t - 1) [t - 2] = [t - 1, t - 2] := by
      simp only [insertDescInt]
      rw [if_pos (by omega : t - 1 ≥ t - 2)]
    have e3 : insertDescInt t [t - 1, t - 2] = [t, t - 1, t - 2] := by
      simp only [insertDescInt]
      rw [if_pos (by omega : t ≥ t - 1)]
    have hs3 : sortDescInt [t, t - 1, t - 2] = [t, t - 1, t - 2] := by
      simp only [sortDescInt, List.foldr_cons, List.foldr_nil]
      rw [show insertDescInt (t - 2) [] = [t - 2] from rfl, e2, e3]
    refine ⟨?_, ?_, ?_⟩
    · simp only [calculateStreak, hd3, hs3]
      rw [if_neg (by omega : ¬ (t - t > 1))]
      simp only [streakWalk, if_pos rfl]
      rw [if_pos (by ring : t - 2 = t - 1 - 1)]
      rfl
    · simp only [calculateStreak, hd1, sortDescInt, List.foldr_cons, List.foldr_nil,
        insertDescInt]
      rw [if_pos (by omega : t - (t - 3) > 1)]
    · simp only [calculateStreak, hd2, sortDescInt, List.foldr_cons, List.foldr_nil,
        insertDescInt]
      rw [if_neg (by omega : ¬ (t - (t - 1) > 1))]
      rfl

/-- Closed instance of `streak_spec`: two consecutive days ending today
give a streak of at least 1 (here both hypotheses of the claim are
discharged at today = 10, dates = {10, 9}). -/
theorem streak_spec_witness :
    ((10 : ℤ) - 10 ≤ 1) ∧ 1 ≤ calculateStreak 10 [10, 9] :=
  ⟨by decide,
    ((streak_spec.1 10 10 [10, 9] (by decide) (by decide)).2 (by decide)).1⟩

/-! ## Per-athlete aggregation of `calculate_hr_zone_points` -/

/-- Pandas `round(0)` on the aggregated points column: round to the
nearest integer, halves to the even neighbour (numpy rounding). -/
def roundHalfEven (q : ℚ) : ℤ :=
  if q - ⌊q⌋ < 1 / 2 then ⌊q⌋
  else if 1 / 2 < q - ⌊q⌋ then ⌊q⌋ + 1
  else if ⌊q⌋ % 2 = 0 then ⌊q⌋ else ⌊q⌋ + 1

/-- One row of the output of `calculate_hr_zone_points`: athlete name,
total zone points after `round(0)`, and the activity count (the
aggregated per-zone second sums are presentation columns omitted here). -/
structure AthleteRow where
  athlete_name : String
  zone_points : ℤ
  activity_count : ℕ
  deriving Repr, DecidableEq

/-- The row-filtering prefix of `calculate_hr_zone_points`: drop rows
whose join produced no athlete name, then drop duplicate activity
identifiers keeping the first. -/
def hrPipeline (records : List HRRecord) : List HRRecord :=
  dropDuplicatesByActivityId (records.filter (fun r => r.athlete_name.isSome))

/-- Insert into a list of athlete names sorted ascending by the Python
string order (code-point lexicographic, here on the character list). -/
def insertAscName (x : String) : List String → List String
  | [] => [x]
  | y :: ys => if x.toList ≤ y.toList then x :: y :: ys else y :: insertAscName x ys

/-- Sort athlete names ascending, as pandas `groupby` (with its default
key sorting) orders the groups. -/
def sortAscNames (l : List String) : List String := l.foldr insertAscName []

/-- `df.groupby('athlete_name').agg({'zone_points': 'sum', 'activity_id':
'count'}).round(0)`: one row per distinct athlete name in ascending name
order, with the rounded points sum and the activity count. -/
def groupRows (df : List HRRecord) : List AthleteRow :=
  (sortAscNames ((df.filterMap (fun r => r.athlete_name)).dedup)).map (fun n =>
    let g := df.filter (fun r => r.athlete_name == some n)
    { athlete_name := n
      zone_points := roundHalfEven ((g.map zonePoints).sum)
      activity_count := g.length })

/-- Insert into a list of rows sorted descending by points.  The
insertion is stable: a row is placed before the first row whose points do
not exceed its own, so rows with equal points keep their incoming order.
(Pandas `sort_values` uses quicksort whose tie order is unspecified; the
stable sort is the determinate model of it.) -/
def insertRowDesc (x : AthleteRow) : List AthleteRow → List AthleteRow
  | [] => [x]
  | y :: ys => if x.zone_points ≥ y.zone_points then x :: y :: ys else y :: insertRowDesc x ys

/-- `sort_values('zone_points', ascending=False)` on the grouped rows. -/
def sortRowsDesc (l : List AthleteRow) : List AthleteRow := l.foldr insertRowDesc []

/-- `calculate_hr_zone_points`: filter unjoined rows, deduplicate by
activity identifier, score each record, aggregate per athlete, order by
points descending. -/
def calculateHrZonePoints (records : List HRRecord) : List AthleteRow :=
  sortRowsDesc (groupRows (hrPipeline records))

theorem mem_insertAscName {x z : String} {l : List String} :
    z ∈ insertAscName x l ↔ z = x ∨ z ∈ l := by
  induction l with
  | nil => simp [insertAscName]
  | cons y ys ih =>
    show z ∈ (if x.toList ≤ y.toList then x :: y :: ys else y :: insertAscName x ys) ↔ _
    by_cases h : x.toList ≤ y.toList
    · rw [if_pos h]
      simp only [List.mem_cons]
    · rw [if_neg h]
      simp only [List.mem_cons, ih]
      tauto

theorem mem_sortAscNames {z : String} {l : List String} :
    z ∈ sortAscNames l ↔ z ∈ l := by
  induction l with
  | nil => simp [sortAscNames]
  | cons y ys ih =>
    simp only [sortAscNames, List.foldr_cons, mem_insertAscName]
    simp only [sortAscNames] at ih
    simp [ih]

theorem insertAscName_pairwise {x : String} {l : List String}
    (h : l.Pairwise (fun a b => a.toList ≤ b.toList)) :
    (insertAscName x l).Pairwise (fun a b => a.toList ≤ b.toList) := by
  induction l with
  | nil => simp [insertAscName]
  | cons y ys ih =>
    obtain ⟨h1, h2⟩ := List.pairwise_cons.mp h
    by_cases hxy : x.toList ≤ y.toList
    · simp only [insertAscName, if_pos hxy]
      refine List.pairwise_cons.mpr ⟨?_, h⟩
      intro b hb
      rcases List.mem_cons.mp hb with hb | hb
      · exact hb ▸ hxy
      · exact le_trans hxy (h1 b hb)
    · simp only [insertAscName, if_neg hxy]
      refine List.pairwise_cons.mpr ⟨?_, ih h2⟩
      intro b hb
      rcases mem_insertAscName.mp hb with hb | hb
      · exact hb ▸ le_of_not_le hxy
      · exact h1 b hb

theorem sortAscNames_pairwise (l : List String) :
    (sortAscNames l).Pairwise (fun a b => a.toList ≤ b.toList) := by
  induction l with
  | nil => simp [sortAscNames]
  | cons y ys ih => exact insertAscName_pairwise ih

theorem insertAscName_nodup {x : String} {l : List String}
    (hx : x ∉ l) (hl : l.Nodup) : (insertAscName x l).Nodup := by
  induction l with
  | nil => simp [insertAscName]
  | cons a t ih =>
    obtain ⟨ha1, ha2⟩ := List.nodup_cons.mp hl
    simp only [List.mem_cons] at hx
    push_neg at hx
    by_cases hxa : x.toList ≤ a.toList
    · simp only [insertAscName, if_pos hxa]
      refine List.nodup_cons.mpr ⟨?_, hl⟩
      simp only [List.mem_cons]
      push_neg
      exact ⟨hx.1, hx.2⟩
    · simp only [insertAscName, if_neg hxa]
      refine List.nodup_cons.mpr ⟨?_, ih hx.2 ha2⟩
      intro hc
      rcases mem_insertAscName.mp hc with hc | hc
      · exact hx.1 hc.symm
      · exact ha1 hc

theorem sortAscNames_nodup {l : List String} (h : l.Nodup) :
    (sortAscNames l).Nodup := by
  induction l with
  | nil => simp [sortAscNames]
  | cons y ys ih =>
    obtain ⟨h1, h2⟩ := List.nodup_cons.mp h
    exact insertAscName_nodup (fun hc => h1 (mem_sortAscNames.mp hc)) (ih h2)

theorem sortAscNames_pairwise_lt {l : List String} (h : l.Nodup) :
    (sortAscNames l).Pairwise (fun a b => a.toList < b.toList) := by
  have hp := sortAscNames_pairwise l
  have hn : (sortAscNames l).Pairwise (fun a b : String => a ≠ b) := sortAscNames_nodup h
  exact (hp.and hn).imp (fun hab => lt_of_le_of_ne hab.1
    (fun hc => hab.2 (by cases ‹String› with | _ => exact String.ext hc)))

/-- The ordering that the grouped-then-sorted output satisfies: strictly
descending points, with point ties ordered by ascending athlete name. -/
def rowOrder (a b : AthleteRow) : Prop :=
  b.zone_points < a.zone_points ∨
    (a.zone_points = b.zone_points ∧ a.athlete_name.toList < b.athlete_name.toList)

theorem mem_insertRowDesc {x z : AthleteRow} {l : List AthleteRow} :
    z ∈ insertRowDesc x l ↔ z = x ∨ z ∈ l := by
  induction l with
  | nil => simp [insertRowDesc]
  | cons y ys ih =>
    by_cases h : x.zone_points ≥ y.zone_points
    · simp [insertRowDesc, if_pos h, or_comm, or_assoc, or_left_comm]
    · simp only [insertRowDesc, if_neg h, List.mem_cons, ih]
      tauto

theorem insertRowDesc_pairwise {x : AthleteRow} {l : List AthleteRow}
    (h : l.Pairwise rowOrder)
    (hx : ∀ z ∈ l, x.athlete_name.toList < z.athlete_name.toList) :
    (insertRowDesc x l).Pairwise rowOrder := by
  induction l with
  | nil => simp [insertRowDesc]
  | cons y ys ih =>
    obtain ⟨h1, h2⟩ := List.pairwise_cons.mp h
    by_cases hxy : x.zone_points ≥ y.zone_points
    · simp only [insertRowDesc, if_pos hxy]
      refine List.pairwise_cons.mpr ⟨?_, h⟩
      intro z hz
      rcases List.mem_cons.mp hz with hz | hz
      · subst hz
        rcases lt_or_eq_of_le hxy with hlt | heq
        · exact Or.inl hlt
        · exact Or.inr ⟨heq.symm, hx z (List.mem_cons_self _ _)⟩
      · rcases h1 z hz with hlt | ⟨heq, _⟩
        · exact Or.inl (lt_of_lt_of_le hlt hxy)
        · rcases lt_or_eq_of_le hxy with hlt2 | heq2
          · exact Or.inl (heq ▸ hlt2)
          · exact Or.inr ⟨heq2.symm.trans heq, hx z (List.mem_cons_of_mem _ hz)⟩
    · simp only [insertRowDesc, if_neg hxy]
      refine List.pairwise_cons.mpr ⟨?_, ih h2 (fun z hz => hx z (List.mem_cons_of_mem _ hz))⟩
      intro z hz
      rcases mem_insertRowDesc.mp hz with hz | hz
      · exact hz ▸ Or.inl (lt_of_not_ge hxy)
      · exact h1 z hz

theorem mem_sortRowsDesc {z : AthleteRow} {l : List AthleteRow} :
    z ∈ sortRowsDesc l ↔ z ∈ l := by
  induction l with
  | nil => simp [sortRowsDesc]
  | cons y ys ih =>
    simp only [sortRowsDesc, List.foldr_cons, mem_insertRowDesc]
    simp only [sortRowsDesc] at ih
    simp [ih]

theorem sortRowsDesc_pairwise {l : List AthleteRow}
    (h : l.Pairwise (fun a b => a.athlete_name.toList < b.athlete_name.toList)) :
    (sortRowsDesc l).Pairwise rowOrder := by
  induction l with
  | nil => simp [sortRowsDesc]
  | cons x xs ih =>
    obtain ⟨h1, h2⟩ := List.pairwise_cons.mp h
    show (insertRowDesc x (sortRowsDesc xs)).Pairwise rowOrder
    exact insertRowDesc_pairwise (ih h2) (fun z hz => h1 z (mem_sortRowsDesc.mp hz))

/-- C6 (amended): the scoring output is ordered descending by total
points, and rows with equal points appear in ascending athlete-name
order — the order the name-sorted grouping produced — not in the
insertion order of the input records. -/
theorem calculateHrZonePoints_sorted (records : List HRRecord) :
    (calculateHrZonePoints records).Pairwise rowOrder := by
  unfold calculateHrZonePoints
  apply sortRowsDesc_pairwise
  unfold groupRows
  rw [List.pairwise_map]
  exact sortAscNames_pairwise_lt (List.nodup_dedup _)

/-- Tie-breaking example: the record of athlete Zoe precedes the record
of athlete Alice in the fetched input, and both score the same points. -/
def zoeRec : HRRecord :=
  { activity_id := 1, athlete_name := some "Zoe"
    zone_1_seconds := some 600, zone_2_seconds := none, zone_3_seconds := none
    zone_4_seconds := none, zone_5_seconds := none }

/-- See `zoeRec`. -/
def aliceRec : HRRecord :=
  { activity_id := 2, athlete_name := some "Alice"
    zone_1_seconds := some 600, zone_2_seconds := none, zone_3_seconds := none
    zone_4_seconds := none, zone_5_seconds := none }

theorem zonePoints_zoeRec : zonePoints zoeRec = 10 := by
  norm_num [zonePoints, fillna0, zoeRec]

theorem zonePoints_aliceRec : zonePoints aliceRec = 10 := by
  norm_num [zonePoints, fillna0, aliceRec]

theorem roundHalfEven_ten : roundHalfEven 10 = 10 := by
  norm_num [roundHalfEven]

theorem groupRows_tie :
    groupRows [zoeRec, aliceRec] =
      [{ athlete_name := "Alice", zone_points := 10, activity_count := 1 },
       { athlete_name := "Zoe", zone_points := 10, activity_count := 1 }] := by
  have hnames :
      sortAscNames ((([zoeRec, aliceRec]).filterMap (fun r => r.athlete_name)).dedup)
        = ["Alice", "Zoe"] := by decide
  have hfA : ([zoeRec, aliceRec]).filter (fun r => r.athlete_name == some "Alice")
      = [aliceRec] := by decide
  have hfZ : ([zoeRec, aliceRec]).filter (fun r => r.athlete_name == some "Zoe")
      = [zoeRec] := by decide
  simp only [groupRows, hnames, List.map_cons, List.map_nil, hfA, hfZ,
    List.length_cons, List.length_nil, List.sum_cons, List.sum_nil, add_zero,
    zonePoints_zoeRec, zonePoints_aliceRec, roundHalfEven_ten]

/-- C6 counterexample: with the tied input `[zoeRec, aliceRec]` (Zoe
first), the output rows both carry 10 points but come out in ascending
name order `[Alice, Zoe]`, not in the original insertion order
`[Zoe, Alice]` that the claim asserts for ties. -/
theorem hrZonePoints_tie_breaks_claim :
    (calculateHrZonePoints [zoeRec, aliceRec]).map AthleteRow.athlete_name
      = ["Alice", "Zoe"] ∧
    (calculateHrZonePoints [zoeRec, aliceRec]).map AthleteRow.zone_points
      = [10, 10] ∧
    (["Alice", "Zoe"] : List String) ≠ ["Zoe", "Alice"] := by
  have hpipe : hrPipeline [zoeRec, aliceRec] = [zoeRec, aliceRec] := by decide
  have hout : calculateHrZonePoints [zoeRec, aliceRec] =
      [{ athlete_name := "Alice", zone_points := 10, activity_count := 1 },
       { athlete_name := "Zoe", zone_points := 10, activity_count := 1 }] := by
    unfold calculateHrZonePoints
    rw [hpipe, groupRows_tie]
    decide
  rw [hout]
  refine ⟨rfl, rfl, by decide⟩

/-! ## Linearity of scoring (C9) -/

/-- Multiply every zone-time field of a record by 2 (null cells stay
null; after `fillna(0)` both count as zero either way). -/
def doubleZones (r : HRRecord) : HRRecord :=
  { r with
    zone_1_seconds := r.zone_1_seconds.map (fun t => 2 * t)
    zone_2_seconds := r.zone_2_seconds.map (fun t => 2 * t)
    zone_3_seconds := r.zone_3_seconds.map (fun t => 2 * t)
    zone_4_seconds := r.zone_4_seconds.map (fun t => 2 * t)
    zone_5_seconds := r.zone_5_seconds.map (fun t => 2 * t) }

/-- The pre-rounding per-athlete points total: the sum of per-record
points over the filtered, deduplicated records of one athlete (the value
that `groupby(...).agg('sum')` aggregates before `round(0)`). -/
def athleteTotalPoints (records : List HRRecord) (n : String) : ℚ :=
  (((hrPipeline records).filter (fun r => r.athlete_name == some n)).map zonePoints).sum

/-- All five zone-time cells of a record count as zero. -/
def zonesAllZero (r : HRRecord) : Prop :=
  fillna0 r.zone_1_seconds = 0 ∧ fillna0 r.zone_2_seconds = 0 ∧
  fillna0 r.zone_3_seconds = 0 ∧ fillna0 r.zone_4_seconds = 0 ∧
  fillna0 r.zone_5_seconds = 0

theorem fillna0_doubleMap (v : Option ℚ) :
    fillna0 (v.map (fun t => 2 * t)) = 2 * fillna0 v := by
  cases v <;> simp [fillna0]

theorem zonePoints_doubleZones (r : HRRecord) :
    zonePoints (doubleZones r) = 2 * zonePoints r := by
  simp only [zonePoints, doubleZones, fillna0_doubleMap]
  ring

theorem dedupAux_map_doubleZones (seen : List ℕ) (l : List HRRecord) :
    dedupAux seen (l.map doubleZones) = (dedupAux seen l).map doubleZones := by
  induction l generalizing seen with
  | nil => simp [dedupAux]
  | cons a t ih =>
    have hid : (doubleZones a).activity_id = a.activity_id := rfl
    by_cases ha : a.activity_id ∈ seen
    · simp only [List.map_cons, dedupAux, hid, if_pos ha]
      exact ih seen
    · simp only [List.map_cons, dedupAux, hid, if_neg ha]
      rw [ih]

theorem hrPipeline_map_doubleZones (records : List HRRecord) :
    hrPipeline (records.map doubleZones) = (hrPipeline records).map doubleZones := by
  unfold hrPipeline dropDuplicatesByActivityId
  rw [← dedupAux_map_doubleZones]
  congr 1
  induction records with
  | nil => rfl
  | cons a t ih =>
    simp only [List.map_cons, List.filter_cons]
    have : (doubleZones a).athlete_name.isSome = a.athlete_name.isSome := rfl
    rw [this]
    by_cases ha : a.athlete_name.isSome
    · simp only [ha, if_pos, List.map_cons, ih]
    · simp only [ha, Bool.false_eq_true, if_false, ih]

/-- C9 (amended): the pre-rounding scoring is linear — doubling every
zone-time field of every record exactly doubles every athlete's points
total — and an input whose zone-time fields are all zero yields an
output whose every points entry is zero (rounding included).  The claim
as stated fails for the rounded output, see the counterexample. -/
theorem scoring_linear_before_rounding :
    (∀ (records : List HRRecord) (n : String),
      athleteTotalPoints (records.map doubleZones) n = 2 * athleteTotalPoints records n) ∧
    (∀ records : List HRRecord, (∀ r ∈ records, zonesAllZero r) →
      ∀ row ∈ calculateHrZonePoints records, row.zone_points = 0) := by
  constructor
  · intro records n
    unfold athleteTotalPoints
    rw [hrPipeline_map_doubleZones]
    set l := hrPipeline records
    have hname : ∀ r : HRRecord, (doubleZones r).athlete_name = r.athlete_name :=
      fun r => rfl
    induction l with
    | nil => simp
    | cons a t ih =>
      simp only [List.map_cons, List.filter_cons, hname]
      by_cases ha : (a.athlete_name == some n) = true
      · simp only [ha, if_pos, List.map_cons, List.sum_cons, zonePoints_doubleZones]
        rw [ih]
        ring
      · simp only [ha, Bool.false_eq_true, if_false, ih]
  · intro records hz row hrow
    have hmem : ∀ r ∈ hrPipeline records, r ∈ records := by
      intro r hr
      have h1 := (mem_dedupAux hr).1
      exact (List.mem_filter.mp h1).1
    unfold calculateHrZonePoints at hrow
    have hrow2 : row ∈ groupRows (hrPipeline records) := mem_sortRowsDesc.mp hrow
    unfold groupRows at hrow2
    rw [List.mem_map] at hrow2
    obtain ⟨n, _, hrown⟩ := hrow2
    have hzero : ∀ r ∈ (hrPipeline records).filter (fun r => r.athlete_name == some n),
        zonePoints r = 0 := by
      intro r hr
      have := hz r (hmem r (List.mem_filter.mp hr).1)
      obtain ⟨h1, h2, h3, h4, h5⟩ := this
      simp [zonePoints, h1, h2, h3, h4, h5]
    have hsum : (((hrPipeline records).filter
        (fun r => r.athlete_name == some n)).map zonePoints).sum = 0 :=
      List.sum_eq_zero (by
        intro q hq
        rw [List.mem_map] at hq
        obtain ⟨r, hr, hqr⟩ := hq
        exact hqr ▸ hzero r hr)
    rw [← hrown]
    simp only [hsum]
    norm_num [roundHalfEven]

/-- The record whose athlete total is 10.3 points before rounding. -/
def solo618 : HRRecord :=
  { activity_id := 5, athlete_name := some "Solo"
    zone_1_seconds := some 618, zone_2_seconds := none, zone_3_seconds := none
    zone_4_seconds := none, zone_5_seconds := none }

theorem groupRows_solo618 :
    groupRows [solo618] =
      [{ athlete_name := "Solo", zone_points := 10, activity_count := 1 }] := by
  have hnames : sortAscNames ((([solo618]).filterMap (fun r => r.athlete_name)).dedup)
      = ["Solo"] := by decide
  have hf : ([solo618]).filter (fun r => r.athlete_name == some "Solo")
      = [solo618] := by decide
  have hzp : zonePoints solo618 = 103 / 10 := by
    norm_num [zonePoints, fillna0, solo618]
  have hrd : roundHalfEven (103 / 10) = 10 := by
    norm_num [roundHalfEven]
  simp only [groupRows, hnames, List.map_cons, List.map_nil, hf,
    List.length_cons, List.length_nil, List.sum_cons, List.sum_nil, add_zero,
    hzp, hrd]

theorem groupRows_solo618_doubled :
    groupRows [doubleZones solo618] =
      [{ athlete_name := "Solo", zone_points := 21, activity_count := 1 }] := by
  have hd : doubleZones solo618 =
      { activity_id := 5, athlete_name := some "Solo"
        zone_1_seconds := some 1236, zone_2_seconds := none, zone_3_seconds := none
        zone_4_seconds := none, zone_5_seconds := none } := by
    simp only [doubleZones, solo618, Option.map_some, Option.map_none]
    norm_num
  rw [hd]
  set r2 : HRRecord :=
    { activity_id := 5, athlete_name := some "Solo"
      zone_1_seconds := some 1236, zone_2_seconds := none, zone_3_seconds := none
      zone_4_seconds := none, zone_5_seconds := none } with hr2
  have hnames : sortAscNames ((([r2]).filterMap (fun r => r.athlete_name)).dedup)
      = ["Solo"] := by decide
  have hf : ([r2]).filter (fun r => r.athlete_name == some "Solo") = [r2] := by decide
  have hzp : zonePoints r2 = 103 / 5 := by
    norm_num [zonePoints, fillna0, hr2]
  have hrd : roundHalfEven (103 / 5) = 21 := by
    norm_num [roundHalfEven]
  simp only [groupRows, hnames, List.map_cons, List.map_nil, hf,
    List.length_cons, List.length_nil, List.sum_cons, List.sum_nil, add_zero,
    hzp, hrd]

/-- C9 counterexample: one athlete, one record with 618 zone-1 seconds.
The computed total is 10 points; after doubling every zone-time field the
computed total is 21, not 2 × 10 — the rounded output is not linear. -/
theorem scoring_rounding_breaks_linearity :
    (calculateHrZonePoints [solo618]).map AthleteRow.zone_points = [10] ∧
    (calculateHrZonePoints [doubleZones solo618]).map AthleteRow.zone_points = [21] ∧
    (21 : ℤ) ≠ 2 * 10 := by
  have hp1 : hrPipeline [solo618] = [solo618] := by decide
  have hp2 : hrPipeline [doubleZones solo618] = [doubleZones solo618] := by
    rw [show ([doubleZones solo618] : List HRRecord) = [solo618].map doubleZones from rfl,
      hrPipeline_map_doubleZones, hp1]
  refine ⟨?_, ?_, by decide⟩
  · unfold calculateHrZonePoints
    rw [hp1, groupRows_solo618]
    decide
  · unfold calculateHrZonePoints
    rw [hp2, groupRows_solo618_doubled]
    decide

/-- The single all-zero record used to instantiate the zero-input part of
the linearity theorem. -/
def zedZero : HRRecord :=
  { activity_id := 3, athlete_name := some "Zed"
    zone_1_seconds := some 0, zone_2_seconds := none, zone_3_seconds := none
    zone_4_seconds := none, zone_5_seconds := none }

theorem calculateHrZonePoints_zedZero :
    calculateHrZonePoints [zedZero] =
      [{ athlete_name := "Zed", zone_points := 0, activity_count := 1 }] := by
  have hp : hrPipeline [zedZero] = [zedZero] := by decide
  have hnames : sortAscNames ((([zedZero]).filterMap (fun r => r.athlete_name)).dedup)
      = ["Zed"] := by decide
  have hf : ([zedZero]).filter (fun r => r.athlete_name == some "Zed")
      = [zedZero] := by decide
  have hzp : zonePoints zedZero = 0 := by
    norm_num [zonePoints, fillna0, zedZero]
  have hrd : roundHalfEven 0 = 0 := by norm_num [roundHalfEven]
  unfold calculateHrZonePoints
  rw [hp]
  rw [show groupRows [zedZero] =
      [{ athlete_name := "Zed", zone_points := 0, activity_count := 1 }] by
    simp only [groupRows, hnames, List.map_cons, List.map_nil, hf,
      List.length_cons, List.length_nil, List.sum_cons, List.sum_nil, add_zero,
      hzp, hrd]]
  decide

/-- Closed instance of `scoring_linear_before_rounding`: the all-zero
single-record input produces a single output row with zero points; both
hypotheses of the theorem are discharged at this input. -/
theorem scoring_zero_witness :
    ({ athlete_name := "Zed", zone_points := 0, activity_count := 1 } : AthleteRow).zone_points
      = 0 :=
  scoring_linear_before_rounding.2 [zedZero]
    (by
      intro r hr
      rcases List.mem_cons.mp hr with h | h
      · subst h
        refine ⟨?_, ?_, ?_, ?_, ?_⟩ <;> norm_num [fillna0, zedZero]
      · simp at h)
    _ (by rw [calculateHrZonePoints_zedZero]; exact List.mem_singleton.mpr rfl)

/-! ## Record normalization (strings as character lists) -/

/-- The single-quote character. -/
def sqc : Char := Char.ofNat 39

/-- The double-quote character. -/
def dqc : Char := Char.ofNat 34

/-- The serialization-artifact marker `root=`. -/
def rootEq : List Char := "root=".toList

/-- `root=` followed by a single quote. -/
def rootEqSq : List Char := rootEq ++ [sqc]

/-- `root=` followed by a double quote. -/
def rootEqDq : List Char := rootEq ++ [dqc]

/-- `clean_field` from `fetch_activities_by_date_range`: strip the
`root=` wrapper forms (single-quoted, double-quoted, bare with optional
surrounding quotes), then remap `Ride` to `Peloton` and keep `Run` as
`Run`.  Python `startswith`/`endswith` become prefix and last-character
tests on the character list. -/
def cleanFieldL (value : List Char) : List Char :=
  let cleaned :=
    if rootEqSq.isPrefixOf value && (value.getLast? == some sqc) then
      (value.drop 6).dropLast
    else if rootEqDq.isPrefixOf value && (value.getLast? == some dqc) then
      (value.drop 6).dropLast
    else if rootEq.isPrefixOf value then
      let c := value.drop 5
      if (c.head? == some sqc) && (c.getLast? == some sqc) then (c.drop 1).dropLast
      else if (c.head? == some dqc) && (c.getLast? == some dqc) then (c.drop 1).dropLast
      else c
    else value
  if cleaned = "Ride".toList then "Peloton".toList
  else if cleaned = "Run".toList then "Run".toList
  else cleaned

/-- The activity-name normalization inlined in the row loop of
`fetch_heart_rate_zones_by_date`: only the single-quoted and bare
`root=` forms are unwrapped (the bare form keeps any quotes), the
unwrapped `Ride` becomes `Peloton`, the unwrapped `Run` becomes
`Treadmill`, and a value without a `root=` marker passes through with no
category remapping at all. -/
def hrCleanActivityName (an : List Char) : List Char :=
  if rootEqSq.isPrefixOf an && (an.getLast? == some sqc) then
    let cleaned := (an.drop 6).dropLast
    if cleaned = "Ride".toList then "Peloton".toList
    else if cleaned = "Run".toList then "Treadmill".toList
    else cleaned
  else if rootEq.isPrefixOf an then
    let cleaned := an.drop 5
    if cleaned = "Ride".toList then "Peloton".toList
    else if cleaned = "Run".toList then "Treadmill".toList
    else cleaned
  else an

/-- C2 counterexample: the two normalizations disagree on the
single-quoted wrapped `Run` (activities: `Run`; heart-rate join:
`Treadmill`), on the double-quoted wrapped `Ride` (activities unwrap and
remap to `Peloton`; the heart-rate join keeps the quotes), and on the
bare string `Ride` (activities remap to `Peloton`; the heart-rate join
leaves it untouched). -/
theorem normalization_divergences :
    hrCleanActivityName (rootEqSq ++ "Run".toList ++ [sqc])
      ≠ cleanFieldL (rootEqSq ++ "Run".toList ++ [sqc]) ∧
    hrCleanActivityName (rootEqDq ++ "Ride".toList ++ [dqc])
      ≠ cleanFieldL (rootEqDq ++ "Ride".toList ++ [dqc]) ∧
    hrCleanActivityName "Ride".toList ≠ cleanFieldL "Ride".toList := by
  refine ⟨by decide, by decide, by decide⟩

theorem prefixOf_iff {p l : List Char} : p.isPrefixOf l = true ↔ p <+: l :=
  List.isPrefixOf_iff_prefix

theorem head_prefix_iff {c : Char} {t : List Char} : [c] <+: t ↔ t.head? = some c := by
  constructor
  · rintro ⟨u, rfl⟩
    rfl
  · intro h
    cases t with
    | nil => simp at h
    | cons a u =>
      simp only [List.head?_cons, Option.some_inj] at h
      exact ⟨u, by simp [h]⟩

/-- C2 (amended): the activities-path normalization and the
heart-rate-join normalization agree on every string except the three
divergence families exhibited in the counterexample: double-quote-wrapped
values, values unwrapping to `Run`, and the bare string `Ride`. -/
theorem normalization_agrees_elsewhere (s : List Char)
    (hdq : ¬ (rootEqDq <+: s ∧ s.getLast? = some dqc))
    (hsqRun : ¬ (rootEqSq <+: s ∧ s.getLast? = some sqc ∧ (s.drop 6).dropLast = "Run".toList))
    (hbareRun : ¬ (rootEq <+: s ∧ s.drop 5 = "Run".toList))
    (hride : s ≠ "Ride".toList) :
    hrCleanActivityName s = cleanFieldL s := by
  by_cases hA : (rootEqSq.isPrefixOf s && (s.getLast? == some sqc)) = true
  · have hA2 := Bool.and_eq_true_iff.mp hA
    have hA1 : rootEqSq <+: s := prefixOf_iff.mp hA2.1
    have hAlast : s.getLast? = some sqc := by simpa using hA2.2
    simp only [hrCleanActivityName, cleanFieldL, hA, if_true]
    by_cases hc1 : (s.drop 6).dropLast = "Ride".toList
    · simp [hc1]
    · by_cases hc2 : (s.drop 6).dropLast = "Run".toList
      · exact absurd ⟨hA1, hAlast, hc2⟩ hsqRun
      · have hc1b : ¬ (s.drop 6).dropLast = ['R', 'i', 'd', 'e'] := hc1
        have hc2b : ¬ (s.drop 6).dropLast = ['R', 'u', 'n'] := hc2
        simp [hc1b, hc2b]
  · by_cases hP : rootEq.isPrefixOf s = true
    · obtain ⟨t, rfl⟩ := prefixOf_iff.mp hP
      have hdrop5 : (rootEq ++ t).drop 5 = t := by
        rw [show (5 : ℕ) = rootEq.length from rfl, List.drop_left]
      have hB : (rootEqDq.isPrefixOf (rootEq ++ t) && ((rootEq ++ t).getLast? == some dqc))
          = false := by
        by_contra hB
        rw [Bool.not_eq_false, Bool.and_eq_true_iff] at hB
        exact hdq ⟨prefixOf_iff.mp hB.1, by simpa using hB.2⟩
      have hsqInner : (((rootEq ++ t).drop 5).head? == some sqc
          && (((rootEq ++ t).drop 5).getLast? == some sqc)) = false := by
        by_contra h
        rw [Bool.not_eq_false, Bool.and_eq_true_iff] at h
        obtain ⟨h1, h2⟩ := h
        rw [hdrop5] at h1 h2
        have h1p : t.head? = some sqc := by simpa using h1
        have h2p : t.getLast? = some sqc := by simpa using h2
        have htne : t ≠ [] := by
          intro hc
          rw [hc] at h1p
          simp at h1p
        have hAtrue : (rootEqSq.isPrefixOf (rootEq ++ t)
            && ((rootEq ++ t).getLast? == some sqc)) = true := by
          rw [Bool.and_eq_true_iff]
          refine ⟨prefixOf_iff.mpr ?_, ?_⟩
          · show rootEq ++ [sqc] <+: rootEq ++ t
            exact (List.prefix_append_right_inj rootEq).mpr (head_prefix_iff.mpr h1p)
          · rw [List.getLast?_append_of_ne_nil _ htne]
            simpa using h2p
        exact hA hAtrue
      have hdqInner : (((rootEq ++ t).drop 5).head? == some dqc
          && (((rootEq ++ t).drop 5).getLast? == some dqc)) = false := by
        by_contra h
        rw [Bool.not_eq_false, Bool.and_eq_true_iff] at h
        obtain ⟨h1, h2⟩ := h
        rw [hdrop5] at h1 h2
        have h1p : t.head? = some dqc := by simpa using h1
        have h2p : t.getLast? = some dqc := by simpa using h2
        have htne : t ≠ [] := by
          intro hc
          rw [hc] at h1p
          simp at h1p
        refine hdq ⟨?_, ?_⟩
        · show rootEq ++ [dqc] <+: rootEq ++ t
          exact (List.prefix_append_right_inj rootEq).mpr (head_prefix_iff.mpr h1p)
        · rw [List.getLast?_append_of_ne_nil _ htne]
          exact h2p
      simp only [hrCleanActivityName, cleanFieldL, hA, hB, hP, hsqInner, hdqInner,
        Bool.false_eq_true, if_false, if_true]
      by_cases hc1 : (rootEq ++ t).drop 5 = "Ride".toList
      · simp [hc1]
      · by_cases hc2 : (rootEq ++ t).drop 5 = "Run".toList
        · exact absurd ⟨List.prefix_append rootEq t, hc2⟩ hbareRun
        · have hc1b : ¬ (rootEq ++ t).drop 5 = ['R', 'i', 'd', 'e'] := hc1
          have hc2b : ¬ (rootEq ++ t).drop 5 = ['R', 'u', 'n'] := hc2
          simp [hc1b, hc2b]
    · have hB : (rootEqDq.isPrefixOf s && (s.getLast? == some dqc)) = false := by
        by_contra hB
        rw [Bool.not_eq_false, Bool.and_eq_true_iff] at hB
        have : rootEq <+: s :=
          List.IsPrefix.trans ⟨[dqc], rfl⟩ (prefixOf_iff.mp hB.1)
        exact hP (prefixOf_iff.mpr this)
      simp only [hrCleanActivityName, cleanFieldL, hA, hB, hP, Bool.false_eq_true, if_false]
      by_cases hc2 : s = "Run".toList
      · simp [hc2]
      · have hc1b : ¬ s = ['R', 'i', 'd', 'e'] := hride
        have hc2b : ¬ s = ['R', 'u', 'n'] := hc2
        simp [hc1b, hc2b]

/-- Closed instance of `normalization_agrees_elsewhere` at the plain
string `Jog`: both normalizations leave it unchanged. -/
theorem normalization_agrees_witness :
    hrCleanActivityName "Jog".toList = cleanFieldL "Jog".toList :=
  normalization_agrees_elsewhere "Jog".toList (by decide) (by decide) (by decide) (by decide)

/-! ## Activities path (C8) -/

/-- One raw activity row as fetched by `fetch_activities_by_date_range`:
the nested `athletes(firstname, lastname)` join result is `none` when the
join could not resolve an athlete.  Date and telemetry columns not used
by the claims are omitted. -/
structure ActivityRaw where
  name : List Char
  sport_type : List Char
  athletes : Option (String × String)
  total_elevation_gain : ℚ
  deriving Repr, DecidableEq

/-- One processed activity row. -/
structure ActivityRow where
  name : List Char
  sport_type : List Char
  athlete_name : String
  total_elevation_gain : ℚ
  deriving Repr, DecidableEq

/-- The elevation reclassification applied after `clean_field`: a
`Peloton` row with strictly positive elevation gain becomes `Bike`. -/
def normSport (x : ActivityRaw) : List Char :=
  let st := cleanFieldL x.sport_type
  if st = "Peloton".toList ∧ x.total_elevation_gain > 0 then "Bike".toList else st

/-- The dataframe-shaping part of `fetch_activities_by_date_range`:
flatten the athlete join (a row with no athlete gets the name `Unknown`),
clean the name and sport-type fields, reclassify Peloton-with-elevation
to Bike, and drop the non-competition sport `Tennis`. -/
def processActivities (rows : List ActivityRaw) : List ActivityRow :=
  (rows.map (fun x =>
    { name := cleanFieldL x.name
      sport_type := normSport x
      athlete_name :=
        match x.athletes with
        | some (f, l) => f ++ " " ++ l
        | none => "Unknown"
      total_elevation_gain := x.total_elevation_gain })).filter
    (fun r => ¬ r.sport_type = "Tennis".toList)

/-- An activity row whose athlete join failed. -/
def orphanWalk : ActivityRaw :=
  { name := "Walk".toList, sport_type := "Walk".toList
    athletes := none, total_elevation_gain := 0 }

/-- C8 counterexample: on the activities path a record whose athlete join
failed is not dropped — it survives processing with the placeholder
athlete name `Unknown`. -/
theorem orphan_activity_kept :
    processActivities [orphanWalk] ≠ [] ∧
    (processActivities [orphanWalk]).map ActivityRow.athlete_name = ["Unknown"] := by
  refine ⟨by decide, by decide⟩

/-- C8 (amended): on the heart-rate-zone path every record surviving the
pipeline has a resolved athlete name (unresolved ones are silently
dropped), while on the activities path a record with an unresolved
athlete is kept under the name `Unknown` — it is only ever removed by the
sport-type exclusion, not by the failed join.  Neither path signals an
error. -/
theorem unresolved_join_handling :
    (∀ records : List HRRecord, ∀ r ∈ hrPipeline records, r.athlete_name.isSome = true) ∧
    (∀ x : ActivityRaw, x.athletes = none →
      (processActivities [x]).map ActivityRow.athlete_name =
        (if normSport x = "Tennis".toList then [] else ["Unknown"])) := by
  constructor
  · intro records r hr
    have h1 := (mem_dedupAux hr).1
    exact (List.mem_filter.mp h1).2
  · intro x hx
    unfold processActivities
    simp only [List.map_cons, List.map_nil, hx, List.filter]
    by_cases ht : normSport x = "Tennis".toList
    · rw [if_pos ht]
      simp [ht]
    · rw [if_neg ht]
      have hd : decide (normSport x = ['T', 'e', 'n', 'n', 'i', 's']) = false :=
        decide_eq_false ht
      simp [hd]

/-- Closed instance of `unresolved_join_handling` at the orphan record:
it is kept with athlete name `Unknown`. -/
theorem unresolved_join_witness :
    (processActivities [orphanWalk]).map ActivityRow.athlete_name = ["Unknown"] := by
  have h := unresolved_join_handling.2 orphanWalk rfl
  rw [h, if_neg (by decide)]

end GranFondoBC
